import Mathlib

/-!
Shallow embedding of `src/python_pii_service/main.py` (PrivacyGuard PII
detection service).  Python strings are modelled as `List Char` (Python
strings are sequences of code points), Python `int` as `Int`, Python `float`
confidence scores as `ℚ` (only order comparisons on scores occur in the
code), and Python's stable `sorted(..., key=...)` as `List.insertionSort`,
which is the same stable sort by the same key.
-/

/-- Mirrors the pydantic model `PIIFinding` (fields `entity_type`, `start`,
`end`, `score`, `text`).  The `analysis_explanation` payload is data the
algorithms never read and no claim mentions, so it is left out of the model. -/
structure PIIFinding where
  entity_type : List Char
  start : Int
  «end» : Int
  score : ℚ
  text : List Char
deriving DecidableEq

/-- Mirrors the pydantic model `PIIDetectionConfig` with its default values
(`engine="presidio"`, `confidence_threshold=0.5`, `entities=[]`,
`language="en"`).  Rational score constants are written with `mkRat` so that
concrete instances evaluate inside the kernel; `mkRat 1 2 = 0.5`. -/
structure PIIDetectionConfig where
  engine : List Char := "presidio".toList
  confidence_threshold : ℚ := mkRat 1 2
  entities : List (List Char) := []
  language : List Char := "en".toList
deriving DecidableEq

/-- Mirrors the pydantic model `PIIAnalysisResult`. -/
structure PIIAnalysisResult where
  findings : List PIIFinding
  anonymized_text : List Char
  processing_engine : List Char
deriving DecidableEq

/-- The sort key relation of `sorted(findings, key=lambda x: x.start)`. -/
def byStart (a b : PIIFinding) : Prop := a.start ≤ b.start

/-- The sort key relation of
`sorted(findings, key=lambda x: x.start, reverse=True)`. -/
def byStartDesc (a b : PIIFinding) : Prop := b.start ≤ a.start

instance : DecidableRel byStart := fun a b => Int.decLe a.start b.start

instance : DecidableRel byStartDesc := fun a b => Int.decLe b.start a.start

instance : IsTotal PIIFinding byStart := ⟨fun a b => Int.le_total a.start b.start⟩

instance : IsTrans PIIFinding byStart := ⟨fun _ _ _ h h' => le_trans h h'⟩

instance : IsTotal PIIFinding byStartDesc := ⟨fun a b => Int.le_total b.start a.start⟩

instance : IsTrans PIIFinding byStartDesc := ⟨fun _ _ _ h h' => le_trans h' h⟩

/-- Python slice index semantics for `t[:i]` and `t[j:]`: a non-negative
index is used as is (slicing clamps at the length), a negative index counts
from the end and clamps at `0` (`Nat` subtraction truncates exactly as
`max(0, n + i)` does). -/
def pySliceIndex (n : Nat) (i : Int) : Nat :=
  if 0 ≤ i then i.toNat else n - (-i).toNat

/-- Python `t[:i]` on a string modelled as `List Char`. -/
def pySliceTo (t : List Char) (i : Int) : List Char :=
  t.take (pySliceIndex t.length i)

/-- Python `t[j:]` on a string modelled as `List Char`. -/
def pySliceFrom (t : List Char) (i : Int) : List Char :=
  t.drop (pySliceIndex t.length i)

/-- The replacement string `f"[{finding.entity_type}]"`. -/
def replacement (f : PIIFinding) : List Char :=
  '[' :: (f.entity_type ++ [']'])

/-- One iteration of the "simple anonymization" loop
(`anonymized_text = anonymized_text[:finding.start] + replacement +
anonymized_text[finding.end:]`, lines 220-223, 267-270 and 320-323 of
`main.py`). -/
def anonymizeStep (t : List Char) (f : PIIFinding) : List Char :=
  pySliceTo t f.start ++ replacement f ++ pySliceFrom t f.«end»

/-- The "simple anonymization" loop: process the findings in descending
order of `start` (`sorted(findings, key=lambda x: x.start, reverse=True)`)
and splice in each replacement. -/
def anonymize (text : List Char) (findings : List PIIFinding) : List Char :=
  (List.insertionSort byStartDesc findings).foldl anonymizeStep text

/-- The closed-interval overlap test of `consolidate_findings` (line 348):
`finding.start <= existing.end and finding.end >= existing.start`, with `f`
the candidate and `e` the already accepted finding. -/
def spanOverlap (f e : PIIFinding) : Prop :=
  f.start ≤ e.«end» ∧ f.«end» ≥ e.start

instance (f e : PIIFinding) : Decidable (spanOverlap f e) :=
  instDecidableAnd

/-- The body of the `for finding in sorted_findings` loop of
`consolidate_findings` (lines 344-358): scan `consolidated` for the first
already accepted finding overlapping the candidate `f`; if none overlaps,
append `f`; if the first overlapping one has a lower score, remove it and
append `f` at the end, otherwise drop `f`.  (Python's
`consolidated.remove(overlapping)` removes the first list element equal to
`overlapping`; equal findings satisfy the same overlap test, so the first
equal element is the first overlapping element itself, which is what this
recursion removes.) -/
def consolidateInsert (f : PIIFinding) : List PIIFinding → List PIIFinding
  | [] => [f]
  | e :: rest =>
    if spanOverlap f e then
      if f.score > e.score then rest ++ [f] else e :: rest
    else
      e :: consolidateInsert f rest

/-- `consolidate_findings` (lines 335-360): stably sort by `start`, then run
the accept/replace/drop loop starting from an empty accepted list.  (The
early `return []` for an empty input coincides with the fold on `[]`.) -/
def consolidate_findings (findings : List PIIFinding) : List PIIFinding :=
  (List.insertionSort byStart findings).foldl (fun acc f => consolidateInsert f acc) []

/-- One entity of a spaCy `doc.ents` sequence, the external input of
`analyze_with_spacy`: attribute `label_`, character offsets `start_char` /
`end_char`, and the matched text. -/
structure SpacyEnt where
  label_ : List Char
  start_char : Int
  end_char : Int
  text : List Char
deriving DecidableEq

/-- The spaCy default entity list of line 201:
`["PERSON", "ORG", "GPE", "DATE", "TIME", "MONEY", "CARDINAL"]`. -/
def spacyDefaultEntities : List (List Char) :=
  ["PERSON".toList, "ORG".toList, "GPE".toList, "DATE".toList,
   "TIME".toList, "MONEY".toList, "CARDINAL".toList]

/-- The finding-extraction loop of `analyze_with_spacy` (lines 199-217):
keep an entity when its label is in `config.entities or [...defaults...]`
(an empty list is falsy in Python, so it selects the defaults), assign
confidence `0.8` (`mkRat 4 5`) for PERSON/ORG and `0.7` (`mkRat 7 10`)
otherwise, and keep the finding when `confidence >= config.confidence_threshold`. -/
def spacyFindings (cfg : PIIDetectionConfig) (ents : List SpacyEnt) : List PIIFinding :=
  ents.filterMap fun ent =>
    if ent.label_ ∈ (if cfg.entities = [] then spacyDefaultEntities else cfg.entities) then
      let confidence : ℚ :=
        if ent.label_ = "PERSON".toList ∨ ent.label_ = "ORG".toList
        then mkRat 4 5 else mkRat 7 10
      if cfg.confidence_threshold ≤ confidence then
        some { entity_type := ent.label_, start := ent.start_char,
               «end» := ent.end_char, score := confidence, text := ent.text }
      else none
    else none

/-- Success path of the `/analyze/spacy` endpoint (lines 185-229): the raw
filtered findings go straight into the simple anonymization loop and are
returned as is — no consolidation happens in single-engine mode. -/
def analyze_with_spacy (text : List Char) (ents : List SpacyEnt)
    (cfg : PIIDetectionConfig) : PIIAnalysisResult :=
  let findings := spacyFindings cfg ents
  { findings := findings
    anonymized_text := anonymize text findings
    processing_engine := "spacy".toList }

/-- One aggregated entity produced by the transformers pipeline, the
external input of `analyze_with_transformers`: keys `entity_group`,
`score`, `start`, `end`, `word`. -/
structure TransformersEnt where
  entity_group : List Char
  score : ℚ
  start : Int
  «end» : Int
  word : List Char
deriving DecidableEq

/-- The finding-extraction loop of `analyze_with_transformers`
(lines 249-264): keep a pipeline result when
`result['score'] >= config.confidence_threshold`. -/
def transformersFindings (cfg : PIIDetectionConfig)
    (results : List TransformersEnt) : List PIIFinding :=
  results.filterMap fun r =>
    if cfg.confidence_threshold ≤ r.score then
      some { entity_type := r.entity_group, start := r.start,
             «end» := r.«end», score := r.score, text := r.word }
    else none

/-- Success path of the `/analyze/transformers` endpoint (lines 235-276):
like spaCy, the raw filtered findings feed the anonymization loop directly,
with no consolidation. -/
def analyze_with_transformers (text : List Char) (results : List TransformersEnt)
    (cfg : PIIDetectionConfig) : PIIAnalysisResult :=
  let findings := transformersFindings cfg results
  { findings := findings
    anonymized_text := anonymize text findings
    processing_engine := "transformers".toList }

/-- Outcome of one per-engine endpoint call made by `analyze_hybrid` or
`benchmark_engines`: the call either returns a `PIIAnalysisResult` or raises
(the engines themselves are external collaborators, so the call outcome is
an input of the model). -/
inductive EngineCall where
  | ok (result : PIIAnalysisResult)
  | failed
deriving DecidableEq

/-- The state `analyze_hybrid` reads: for each engine, `none` when its key
is absent from `nlp_models` (the `if '...' in nlp_models` guard skips it)
and `some c` with the call outcome `c` when it is present. -/
structure NlpModels where
  presidio : Option EngineCall
  spacy : Option EngineCall
  transformers : Option EngineCall
deriving DecidableEq

/-- What one engine contributes to `all_findings` in `analyze_hybrid`: its
result findings on success, nothing when it is absent or its call raised
(the `except` clause only logs and moves on). -/
def engineFindings : Option EngineCall → List PIIFinding
  | some (.ok r) => r.findings
  | _ => []

/-- `analyze_hybrid` (lines 282-333): concatenate the findings of every
available, successful engine, consolidate them, anonymize with the
consolidated set, and return `processing_engine="hybrid"`.  The code never
inspects how many engines contributed (`engines_used` is assigned but never
read), and nothing inside the outer `try` raises once the per-engine calls
are guarded, so the endpoint always returns a successful result. -/
def analyze_hybrid (text : List Char) (models : NlpModels) : PIIAnalysisResult :=
  let all_findings :=
    engineFindings models.presidio ++ engineFindings models.spacy ++
      engineFindings models.transformers
  let consolidated := consolidate_findings all_findings
  { findings := consolidated
    anonymized_text := anonymize text consolidated
    processing_engine := "hybrid".toList }

/-- Outcome of one per-engine benchmark call: on success the measured
wall-clock seconds (external input) and the analysis result, otherwise a
raised exception caught by the `except` clause. -/
inductive BenchCall where
  | ok (elapsed : ℚ) (result : PIIAnalysisResult)
  | failed
deriving DecidableEq

/-- The state `benchmark_engines` reads, one entry per engine as in
`NlpModels`. -/
structure BenchModels where
  presidio : Option BenchCall
  spacy : Option BenchCall
  transformers : Option BenchCall
deriving DecidableEq

/-- The `results[engine]` entry after the benchmark loop: present only when
the engine was available and its call succeeded. -/
def benchEntry : Option BenchCall → Option PIIAnalysisResult
  | some (.ok _ r) => some r
  | _ => none

/-- The `performance[engine_time]` entry after the benchmark loop: absent
when the engine was not loaded, the elapsed seconds on success, and the
sentinel `-1` when the call raised. -/
def benchTime : Option BenchCall → Option ℚ
  | some (.ok t _) => some t
  | some .failed => some (-1)
  | none => none

/-- A Python `AttributeError`, the only exception the modelled benchmark
code can raise. -/
inductive PyError where
  | attributeError
deriving DecidableEq

/-- Models `len(results.get(engine, {}).get('findings', []))` of lines
400-402.  When the key is absent, the default `{}` is used and
`{}.get('findings', [])` yields `[]`, so the count is `0`.  When the key is
present, its value is a pydantic `PIIAnalysisResult` object, which has no
`get` attribute, so Python raises `AttributeError` instead of producing a
count. -/
def getFindingsCount : Option PIIAnalysisResult → Except PyError Nat
  | none => .ok 0
  | some _ => .error .attributeError

/-- The value returned by `/benchmark`: the spread `{**results, ...}` of the
per-engine results plus the `performance` dict with the per-engine times and
the `accuracy_comparison` counts (presidio, spacy, transformers). -/
structure BenchmarkOutput where
  presidio_result : Option PIIAnalysisResult
  spacy_result : Option PIIAnalysisResult
  transformers_result : Option PIIAnalysisResult
  presidio_time : Option ℚ
  spacy_time : Option ℚ
  transformers_time : Option ℚ
  accuracy_comparison : Nat × Nat × Nat
deriving DecidableEq

/-- `benchmark_engines` (lines 362-408).  The per-engine loop never lets a
call failure escape (each call sits in its own `try`, recording `-1` and
moving on), but the `accuracy_comparison` dict built afterwards runs
`results.get(engine, {}).get('findings', [])` outside any `try`, so the
endpoint raises whenever at least one engine succeeded. -/
def benchmark_engines (models : BenchModels) : Except PyError BenchmarkOutput := do
  let rp := benchEntry models.presidio
  let rs := benchEntry models.spacy
  let rt := benchEntry models.transformers
  let cp ← getFindingsCount rp
  let cs ← getFindingsCount rs
  let ct ← getFindingsCount rt
  return { presidio_result := rp, spacy_result := rs, transformers_result := rt
           presidio_time := benchTime models.presidio
           spacy_time := benchTime models.spacy
           transformers_time := benchTime models.transformers
           accuracy_comparison := (cp, cs, ct) }

/-! ### Helper lemmas about `consolidateInsert` and the consolidation fold -/

lemma spanOverlap_symm {a b : PIIFinding} (h : spanOverlap a b) : spanOverlap b a :=
  ⟨h.2, h.1⟩

lemma consolidateInsert_subperm (f : PIIFinding) (acc : List PIIFinding) :
    List.Subperm (consolidateInsert f acc) (acc ++ [f]) := by
  induction acc with
  | nil => exact List.Subperm.refl _
  | cons e rest ih =>
    by_cases hov : spanOverlap f e
    · by_cases hsc : f.score > e.score
      · simp only [consolidateInsert, if_pos hov, if_pos hsc]
        exact (List.sublist_cons_self e (rest ++ [f])).subperm
      · simp only [consolidateInsert, if_pos hov, if_neg hsc]
        exact (List.sublist_append_left (e :: rest) [f]).subperm
    · simp only [consolidateInsert, if_neg hov]
      obtain ⟨u, hu, hsub⟩ := ih
      exact ⟨e :: u, hu.cons e, hsub.cons₂ e⟩

lemma mem_consolidateInsert {x f : PIIFinding} {acc : List PIIFinding}
    (h : x ∈ consolidateInsert f acc) : x ∈ acc ∨ x = f := by
  have := (consolidateInsert_subperm f acc).subset h
  simpa using this

lemma foldl_consolidateInsert_subperm :
    ∀ (l acc : List PIIFinding),
      List.Subperm (l.foldl (fun acc f => consolidateInsert f acc) acc) (acc ++ l) := by
  intro l
  induction l with
  | nil => intro acc; simpa using List.Subperm.refl acc
  | cons f rest ih =>
    intro acc
    have h1 := ih (consolidateInsert f acc)
    have h2 : List.Subperm (consolidateInsert f acc ++ rest) ((acc ++ [f]) ++ rest) := by
      obtain ⟨u, hu, hsub⟩ := consolidateInsert_subperm f acc
      exact ⟨u ++ rest, hu.append_right rest, hsub.append_right rest⟩
    have h3 := h1.trans h2
    simpa [List.append_assoc] using h3

/-- Key geometric fact behind the loop invariant: when the candidate `f`
overlaps the first accepted finding `x`, it cannot also overlap a later
accepted finding `e` (the accepted list is pairwise non-overlapping and all
accepted starts are bounded by the candidate's start). -/
lemma no_second_overlap {f x e : PIIFinding}
    (hov : spanOverlap f x) (hxe : ¬ spanOverlap x e)
    (hx3 : x.start ≤ f.start) (he3 : e.start ≤ f.start) :
    ¬ spanOverlap e f := by
  intro hef
  obtain ⟨hov1, hov2⟩ := hov
  obtain ⟨hef1, hef2⟩ := hef
  by_cases hc : x.start ≤ e.«end»
  · have hlt : ¬ (x.«end» ≥ e.start) := fun h => hxe ⟨hc, h⟩
    rw [ge_iff_le, not_le] at hlt
    -- f.start ≤ x.end < e.start ≤ f.start
    omega
  · rw [not_le] at hc
    -- f.start ≤ e.end < x.start ≤ f.start
    have : f.start ≤ e.«end» := hef2
    omega

/-- The invariant of the consolidation loop: if the accepted list is
pairwise non-overlapping, non-decreasing in `start`, and every accepted
`start` is at most the candidate's `start`, all three facts survive one
`consolidateInsert` step. -/
lemma consolidateInsert_inv {f : PIIFinding} {acc : List PIIFinding}
    (h1 : acc.Pairwise (fun a b => ¬ spanOverlap a b))
    (h2 : acc.Pairwise byStart)
    (h3 : ∀ e ∈ acc, e.start ≤ f.start) :
    (consolidateInsert f acc).Pairwise (fun a b => ¬ spanOverlap a b) ∧
    (consolidateInsert f acc).Pairwise byStart ∧
    ∀ e ∈ consolidateInsert f acc, e.start ≤ f.start := by
  induction acc with
  | nil =>
    refine ⟨by simp [consolidateInsert], by simp [consolidateInsert], ?_⟩
    intro e he
    simp only [consolidateInsert, List.mem_singleton] at he
    exact le_of_eq (congrArg PIIFinding.start he)
  | cons x rest ih =>
    rw [List.pairwise_cons] at h1 h2
    obtain ⟨hx1, hrest1⟩ := h1
    obtain ⟨hx2, hrest2⟩ := h2
    have hx3 : x.start ≤ f.start := h3 x (List.mem_cons_self x rest)
    have hrest3 : ∀ e ∈ rest, e.start ≤ f.start :=
      fun e he => h3 e (List.mem_cons_of_mem x he)
    by_cases hov : spanOverlap f x
    · by_cases hsc : f.score > x.score
      · -- the candidate replaces `x`: result is `rest ++ [f]`
        simp only [consolidateInsert, if_pos hov, if_pos hsc]
        have hnov : ∀ e ∈ rest, ¬ spanOverlap e f := fun e he =>
          no_second_overlap hov (hx1 e he) hx3 (hrest3 e he)
        refine ⟨?_, ?_, ?_⟩
        · rw [List.pairwise_append]
          exact ⟨hrest1, List.pairwise_singleton _ f,
            fun e he b hb => by rw [List.mem_singleton] at hb; exact hb ▸ hnov e he⟩
        · rw [List.pairwise_append]
          exact ⟨hrest2, List.pairwise_singleton _ f,
            fun e he b hb => by rw [List.mem_singleton] at hb; exact hb ▸ hrest3 e he⟩
        · intro e he
          rcases List.mem_append.mp he with he | he
          · exact hrest3 e he
          · rw [List.mem_singleton] at he; exact le_of_eq (congrArg PIIFinding.start he)
      · -- the candidate is dropped: result is `x :: rest`
        simp only [consolidateInsert, if_pos hov, if_neg hsc]
        exact ⟨List.pairwise_cons.mpr ⟨hx1, hrest1⟩, List.pairwise_cons.mpr ⟨hx2, hrest2⟩, h3⟩
    · -- no overlap with the head: recurse into `rest`
      simp only [consolidateInsert, if_neg hov]
      obtain ⟨ih1, ih2, ih3⟩ := ih hrest1 hrest2 hrest3
      refine ⟨List.pairwise_cons.mpr ⟨?_, ih1⟩, List.pairwise_cons.mpr ⟨?_, ih2⟩, ?_⟩
      · intro e he
        rcases mem_consolidateInsert he with he' | he'
        · exact hx1 e he'
        · exact he' ▸ fun hxf => hov (spanOverlap_symm hxf)
      · intro e he
        rcases mem_consolidateInsert he with he' | he'
        · exact hx2 e he'
        · exact he' ▸ hx3
      · intro e he
        rcases List.mem_cons.mp he with he' | he'
        · exact he' ▸ hx3
        · exact ih3 e he'

/-- The loop invariant carried over the whole consolidation fold. -/
lemma foldl_consolidateInsert_inv :
    ∀ (l acc : List PIIFinding),
      l.Pairwise byStart →
      acc.Pairwise (fun a b => ¬ spanOverlap a b) →
      acc.Pairwise byStart →
      (∀ e ∈ acc, ∀ c ∈ l, e.start ≤ c.start) →
      (l.foldl (fun acc f => consolidateInsert f acc) acc).Pairwise
          (fun a b => ¬ spanOverlap a b) ∧
      (l.foldl (fun acc f => consolidateInsert f acc) acc).Pairwise byStart := by
  intro l
  induction l with
  | nil => intro acc _ ha1 ha2 _; exact ⟨ha1, ha2⟩
  | cons f rest ih =>
    intro acc hl ha1 ha2 ha3
    rw [List.pairwise_cons] at hl
    obtain ⟨hf, hrest⟩ := hl
    have hacc3 : ∀ e ∈ acc, e.start ≤ f.start :=
      fun e he => ha3 e he f (List.mem_cons_self f rest)
    obtain ⟨hi1, hi2, hi3⟩ := consolidateInsert_inv ha1 ha2 hacc3
    exact ih (consolidateInsert f acc) hrest hi1 hi2
      (fun e he c hc => le_trans (hi3 e he) (hf c hc))

/-- Claim C2: for every input list of findings, the output of
`consolidate_findings` is pairwise non-overlapping under the closed-interval
test `a.start <= b.end and a.end >= b.start`; no two returned findings
overlap, in particular also when three or more input findings overlap in a
chain. -/
theorem consolidate_findings_pairwise_non_overlapping (findings : List PIIFinding) :
    (consolidate_findings findings).Pairwise
      (fun a b => ¬ (a.start ≤ b.«end» ∧ a.«end» ≥ b.start)) := by
  have hs : (List.insertionSort byStart findings).Pairwise byStart :=
    List.sorted_insertionSort byStart findings
  have := foldl_consolidateInsert_inv (List.insertionSort byStart findings) []
    hs (List.Pairwise.nil) (List.Pairwise.nil) (by intro e he; cases he)
  exact this.1

/-- Claim C7: the list returned by `consolidate_findings` is sorted
ascending (non-decreasing) by `start`, even though a replacement appends the
winning candidate at the end of the accepted list without a final re-sort. -/
theorem consolidate_findings_sorted_by_start (findings : List PIIFinding) :
    (consolidate_findings findings).Pairwise (fun a b => a.start ≤ b.start) := by
  have hs : (List.insertionSort byStart findings).Pairwise byStart :=
    List.sorted_insertionSort byStart findings
  have := foldl_consolidateInsert_inv (List.insertionSort byStart findings) []
    hs (List.Pairwise.nil) (List.Pairwise.nil) (by intro e he; cases he)
  exact this.2

/-- Claim C10: `consolidate_findings` never invents or mutates findings —
the output is a sub-multiset of the input (every returned finding is an
input finding, all fields unchanged), so its length never exceeds the
input's. -/
theorem consolidate_findings_subperm (findings : List PIIFinding) :
    List.Subperm (consolidate_findings findings) findings ∧
    (∀ f ∈ consolidate_findings findings, f ∈ findings) ∧
    (consolidate_findings findings).length ≤ findings.length := by
  have h1 : List.Subperm (consolidate_findings findings)
      ([] ++ List.insertionSort byStart findings) :=
    foldl_consolidateInsert_subperm (List.insertionSort byStart findings) []
  rw [List.nil_append] at h1
  have h2 : List.Subperm (consolidate_findings findings) findings :=
    h1.trans (List.perm_insertionSort byStart findings).subperm
  exact ⟨h2, fun f hf => h2.subset hf, h2.length_le⟩

lemma consolidateInsert_of_no_overlap {f : PIIFinding} {acc : List PIIFinding}
    (h : ∀ e ∈ acc, ¬ spanOverlap f e) :
    consolidateInsert f acc = acc ++ [f] := by
  induction acc with
  | nil => rfl
  | cons x rest ih =>
    have hx : ¬ spanOverlap f x := h x (List.mem_cons_self x rest)
    simp only [consolidateInsert, if_neg hx, List.cons_append]
    rw [ih (fun e he => h e (List.mem_cons_of_mem x he))]

lemma foldl_consolidateInsert_of_pairwise :
    ∀ (l acc : List PIIFinding),
      (∀ c ∈ l, ∀ e ∈ acc, ¬ spanOverlap c e) →
      l.Pairwise (fun a b => ¬ spanOverlap b a) →
      l.foldl (fun acc f => consolidateInsert f acc) acc = acc ++ l := by
  intro l
  induction l with
  | nil => intro acc _ _; simp
  | cons f rest ih =>
    intro acc hacc hl
    rw [List.pairwise_cons] at hl
    obtain ⟨hf, hrest⟩ := hl
    have hstep : consolidateInsert f acc = acc ++ [f] :=
      consolidateInsert_of_no_overlap
        (hacc f (List.mem_cons_self f rest))
    have hnext : ∀ c ∈ rest, ∀ e ∈ acc ++ [f], ¬ spanOverlap c e := by
      intro c hc e he
      rcases List.mem_append.mp he with he' | he'
      · exact hacc c (List.mem_cons_of_mem f hc) e he'
      · rw [List.mem_singleton] at he'; exact he' ▸ hf c hc
    calc (f :: rest).foldl (fun acc f => consolidateInsert f acc) acc
        = rest.foldl (fun acc f => consolidateInsert f acc) (consolidateInsert f acc) := rfl
      _ = (acc ++ [f]) ++ rest := by rw [hstep]; exact ih (acc ++ [f]) hnext hrest
      _ = acc ++ f :: rest := by simp

/-- Claim C8: consolidation is idempotent on already-consolidated input —
a finding list sorted ascending by `start` and pairwise non-overlapping
under the Consolidator's closed-interval test is returned unchanged. -/
theorem consolidate_findings_idempotent (findings : List PIIFinding)
    (hsorted : findings.Pairwise (fun a b => a.start ≤ b.start))
    (hsep : findings.Pairwise (fun a b => ¬ (a.start ≤ b.«end» ∧ a.«end» ≥ b.start))) :
    consolidate_findings findings = findings := by
  have heq : List.insertionSort byStart findings = findings :=
    List.Sorted.insertionSort_eq hsorted
  have hsep' : findings.Pairwise (fun a b => ¬ spanOverlap b a) :=
    hsep.imp (fun h hba => h (spanOverlap_symm hba))
  unfold consolidate_findings
  rw [heq]
  have := foldl_consolidateInsert_of_pairwise findings []
    (by intro c _ e he; cases he) hsep'
  simpa using this

/-- Witness for C8 at a concrete sorted, non-overlapping two-element list. -/
theorem consolidate_findings_idempotent_witness :
    consolidate_findings
      [⟨"A".toList, 0, 2, mkRat 1 2, "ab".toList⟩,
       ⟨"B".toList, 5, 7, mkRat 1 2, "fg".toList⟩] =
      [⟨"A".toList, 0, 2, mkRat 1 2, "ab".toList⟩,
       ⟨"B".toList, 5, 7, mkRat 1 2, "fg".toList⟩] :=
  consolidate_findings_idempotent _ (by decide) (by decide)

/-- Claim C6: a list of exactly two findings that overlap under the
closed-interval test and have distinct scores consolidates to exactly the
higher-scored one. -/
theorem consolidate_two_overlapping (a b : PIIFinding)
    (hov : a.start ≤ b.«end» ∧ a.«end» ≥ b.start)
    (hne : a.score ≠ b.score) :
    consolidate_findings [a, b] = [if a.score < b.score then b else a] := by
  have hba : spanOverlap b a := spanOverlap_symm hov
  unfold consolidate_findings
  by_cases hab : a.start ≤ b.start
  · have hsort : List.insertionSort byStart [a, b] = [a, b] := by
      simp [List.insertionSort, List.orderedInsert, byStart, if_pos hab]
    rw [hsort]
    show consolidateInsert b (consolidateInsert a []) = _
    simp only [consolidateInsert, if_pos hba]
    rcases lt_or_gt_of_ne hne with h | h
    · rw [if_pos (show b.score > a.score from h), if_pos h, List.nil_append]
    · rw [if_neg (show ¬ b.score > a.score from not_lt_of_gt h),
        if_neg (not_lt_of_gt h)]
  · have hsort : List.insertionSort byStart [a, b] = [b, a] := by
      simp [List.insertionSort, List.orderedInsert, byStart, if_neg hab]
    rw [hsort]
    show consolidateInsert a (consolidateInsert b []) = _
    simp only [consolidateInsert, if_pos (show spanOverlap a b from hov)]
    rcases lt_or_gt_of_ne hne with h | h
    · rw [if_neg (show ¬ a.score > b.score from not_lt_of_gt h), if_pos h]
    · rw [if_pos (show a.score > b.score from h), if_neg (not_lt_of_gt h),
        List.nil_append]

/-- Witness for C6: the touching spans `[0,4]` and `[4,8]` of the spec's
boundary case count as overlapping and are resolved by score. -/
theorem consolidate_two_overlapping_witness :
    consolidate_findings
      [⟨"A".toList, 0, 4, mkRat 3 5, "John".toList⟩,
       ⟨"B".toList, 4, 8, mkRat 4 5, " Doe".toList⟩] =
      [⟨"B".toList, 4, 8, mkRat 4 5, " Doe".toList⟩] := by
  have h := consolidate_two_overlapping
    ⟨"A".toList, 0, 4, mkRat 3 5, "John".toList⟩
    ⟨"B".toList, 4, 8, mkRat 4 5, " Doe".toList⟩
    (by decide) (by decide)
  simpa using h

/-! ### Helper lemmas about the anonymization loop -/

lemma anonymizeStep_length {w : List Char} {f : PIIFinding}
    (h0 : 0 ≤ f.start) (hse : f.start ≤ f.«end») (hle : f.«end» ≤ (w.length : ℤ)) :
    ((anonymizeStep w f).length : ℤ) =
      (w.length : ℤ) + ((f.entity_type.length : ℤ) + 2) - (f.«end» - f.start) := by
  simp only [anonymizeStep, pySliceTo, pySliceFrom, pySliceIndex, replacement,
    if_pos h0, if_pos (le_trans h0 hse), List.length_append, List.length_take,
    List.length_drop, List.length_cons, List.length_nil]
  omega

lemma foldl_anonymizeStep_length :
    ∀ (l : List PIIFinding) (w : List Char),
      l.Pairwise (fun a b => b.«end» ≤ a.start) →
      (∀ f ∈ l, 0 ≤ f.start ∧ f.start < f.«end» ∧ f.«end» ≤ (w.length : ℤ)) →
      ((l.foldl anonymizeStep w).length : ℤ) =
        (w.length : ℤ) +
          (l.map (fun f => ((f.entity_type.length : ℤ) + 2) - (f.«end» - f.start))).sum := by
  intro l
  induction l with
  | nil => intro w _ _; simp
  | cons f rest ih =>
    intro w hchain hval
    rw [List.pairwise_cons] at hchain
    obtain ⟨hhead, htail⟩ := hchain
    obtain ⟨h0, hlt, hle⟩ := hval f (List.mem_cons_self f rest)
    have hstep := anonymizeStep_length h0 (le_of_lt hlt) hle
    have hval' : ∀ g ∈ rest, 0 ≤ g.start ∧ g.start < g.«end» ∧
        g.«end» ≤ ((anonymizeStep w f).length : ℤ) := by
      intro g hg
      obtain ⟨g0, glt, _⟩ := hval g (List.mem_cons_of_mem f hg)
      refine ⟨g0, glt, ?_⟩
      have hgf : g.«end» ≤ f.start := hhead g hg
      have het : (0:ℤ) ≤ (f.entity_type.length : ℤ) := Int.natCast_nonneg _
      omega
    have := ih (anonymizeStep w f) htail hval'
    rw [List.foldl_cons, this, hstep]
    simp only [List.map_cons, List.sum_cons]
    ring

lemma list_sum_map_sub (l : List PIIFinding) (g h : PIIFinding → ℤ) :
    (l.map (fun x => g x - h x)).sum = (l.map g).sum - (l.map h).sum := by
  induction l with
  | nil => simp
  | cons x xs ih => simp only [List.map_cons, List.sum_cons, ih]; ring

/-- Builds the processing-order chain condition for the anonymization loop:
on the descending-sorted list, disjointness plus validity mean each later
finding ends at or before the start of every earlier one. -/
lemma pairwise_chain_of_disjoint :
    ∀ (l : List PIIFinding),
      l.Pairwise (fun a b => a.«end» ≤ b.start ∨ b.«end» ≤ a.start) →
      l.Pairwise byStartDesc →
      (∀ f ∈ l, f.start < f.«end») →
      l.Pairwise (fun a b => b.«end» ≤ a.start) := by
  intro l
  induction l with
  | nil => intro _ _ _; exact List.Pairwise.nil
  | cons f rest ih =>
    intro hd hs hv
    rw [List.pairwise_cons] at hd hs ⊢
    refine ⟨?_, ih hd.2 hs.2 (fun g hg => hv g (List.mem_cons_of_mem f hg))⟩
    intro g hg
    have hfv : f.start < f.«end» := hv f (List.mem_cons_self f rest)
    have hgs : g.start ≤ f.start := hs.1 g hg
    rcases hd.1 g hg with h | h
    · omega
    · exact h

/-- Claim C9: length law of the anonymizer.  For pairwise disjoint findings
with valid offsets `0 ≤ start < end ≤ len(text)`,
`len(anonymized) = len(original) - Σ (end - start) + Σ len("[" + entity_type + "]")`,
and an empty finding set leaves the text unchanged. -/
theorem anonymize_length_law (text : List Char) (fs : List PIIFinding)
    (hdisj : fs.Pairwise (fun a b => a.«end» ≤ b.start ∨ b.«end» ≤ a.start))
    (hval : ∀ f ∈ fs, 0 ≤ f.start ∧ f.start < f.«end» ∧ f.«end» ≤ (text.length : ℤ)) :
    ((anonymize text fs).length : ℤ) =
      (text.length : ℤ) - (fs.map (fun f => f.«end» - f.start)).sum
        + (fs.map (fun f => (f.entity_type.length : ℤ) + 2)).sum
    ∧ anonymize text [] = text := by
  constructor
  · have hperm : (List.insertionSort byStartDesc fs).Perm fs :=
      List.perm_insertionSort byStartDesc fs
    have hsorted : (List.insertionSort byStartDesc fs).Pairwise byStartDesc :=
      List.sorted_insertionSort byStartDesc fs
    have hsym : Symmetric (fun a b : PIIFinding =>
        a.«end» ≤ b.start ∨ b.«end» ≤ a.start) := fun _ _ h => h.symm
    have hdisj' := (hperm.pairwise_iff (fun h => hsym h)).mpr hdisj
    have hval' : ∀ f ∈ List.insertionSort byStartDesc fs,
        0 ≤ f.start ∧ f.start < f.«end» ∧ f.«end» ≤ (text.length : ℤ) :=
      fun f hf => hval f (hperm.subset hf)
    have hchain := pairwise_chain_of_disjoint _ hdisj' hsorted
      (fun f hf => (hval' f hf).2.1)
    have hlen := foldl_anonymizeStep_length (List.insertionSort byStartDesc fs)
      text hchain hval'
    have hsum : ((List.insertionSort byStartDesc fs).map
          (fun f => ((f.entity_type.length : ℤ) + 2) - (f.«end» - f.start))).sum =
        (fs.map (fun f => ((f.entity_type.length : ℤ) + 2) - (f.«end» - f.start))).sum :=
      (hperm.map _).sum_eq
    rw [anonymize] at *
    rw [hlen, hsum, list_sum_map_sub]
    ring
  · rfl

/-- Witness for C9 on `"John is here"` with the single finding
`{PERSON, 0, 4}`: `12 - 4 + 8 = 16`. -/
theorem anonymize_length_law_witness :
    ((anonymize "John is here".toList
        [⟨"PERSON".toList, 0, 4, mkRat 4 5, "John".toList⟩]).length : ℤ) =
      ((12 : ℤ) - 4 + 8)
    ∧ anonymize "John is here".toList [] = "John is here".toList := by
  have h := anonymize_length_law "John is here".toList
    [⟨"PERSON".toList, 0, 4, mkRat 4 5, "John".toList⟩]
    (by decide) (by decide)
  simpa using h

/-! ### Orchestration claims -/

/-- Counterexample to claim C1: with zero engines loaded, `analyze_hybrid`
does not fail with `NoEngineAvailable` — it returns a successful
`PIIAnalysisResult` with no findings and the text unchanged (the code never
inspects `engines_used`, and no `NoEngineAvailable` path exists). -/
theorem hybrid_no_engines_counterexample :
    analyze_hybrid "hello".toList ⟨none, none, none⟩ =
      { findings := []
        anonymized_text := "hello".toList
        processing_engine := "hybrid".toList } := rfl

/-- Claim C1 as amended: for every request with zero detection engines
available, the hybrid analyze operation returns a successful result with an
empty finding list, the input text unchanged as `anonymized_text`, and
`processing_engine = "hybrid"`; it does not fail. -/
theorem hybrid_no_engines_returns_empty_success (text : List Char)
    (models : NlpModels) (hp : models.presidio = none)
    (hs : models.spacy = none) (ht : models.transformers = none) :
    analyze_hybrid text models =
      { findings := []
        anonymized_text := text
        processing_engine := "hybrid".toList } := by
  obtain ⟨p, s, t⟩ := models
  simp only at hp hs ht
  subst hp; subst hs; subst ht
  rfl

/-- Witness for the amended C1 at a concrete request. -/
theorem hybrid_no_engines_returns_empty_success_witness :
    analyze_hybrid "abc".toList ⟨none, none, none⟩ =
      { findings := []
        anonymized_text := "abc".toList
        processing_engine := "hybrid".toList } :=
  hybrid_no_engines_returns_empty_success "abc".toList ⟨none, none, none⟩ rfl rfl rfl

/-- Counterexample to claim C3: in single-engine mode the findings returned
to the caller are not the consolidated findings.  Two overlapping spaCy
entities (PERSON 0-4 and ORG 2-6, both at confidence 0.8) are both returned,
while consolidation of the same detected findings keeps only one. -/
theorem single_engine_skips_consolidation_counterexample :
    (analyze_with_spacy "John Doe is here".toList
        [⟨"PERSON".toList, 0, 4, "John".toList⟩,
         ⟨"ORG".toList, 2, 6, "hn D".toList⟩] {}).findings ≠
      consolidate_findings (spacyFindings {}
        [⟨"PERSON".toList, 0, 4, "John".toList⟩,
         ⟨"ORG".toList, 2, 6, "hn D".toList⟩]) := by decide

/-- Claim C3 as amended: only hybrid mode passes the concatenated raw
finding lists through the Consolidator before the Anonymizer; in
single-engine mode the raw detected findings are returned as is and feed
the anonymization loop directly, without consolidation. -/
theorem findings_pipeline_by_mode :
    (∀ (text : List Char) (models : NlpModels),
        (analyze_hybrid text models).findings =
          consolidate_findings
            (engineFindings models.presidio ++ engineFindings models.spacy ++
              engineFindings models.transformers) ∧
        (analyze_hybrid text models).anonymized_text =
          anonymize text
            (consolidate_findings
              (engineFindings models.presidio ++ engineFindings models.spacy ++
                engineFindings models.transformers))) ∧
    (∀ (text : List Char) (ents : List SpacyEnt) (cfg : PIIDetectionConfig),
        (analyze_with_spacy text ents cfg).findings = spacyFindings cfg ents ∧
        (analyze_with_spacy text ents cfg).anonymized_text =
          anonymize text (spacyFindings cfg ents)) ∧
    (∀ (text : List Char) (results : List TransformersEnt) (cfg : PIIDetectionConfig),
        (analyze_with_transformers text results cfg).findings =
          transformersFindings cfg results ∧
        (analyze_with_transformers text results cfg).anonymized_text =
          anonymize text (transformersFindings cfg results)) :=
  ⟨fun _ _ => ⟨rfl, rfl⟩, fun _ _ _ => ⟨rfl, rfl⟩, fun _ _ _ => ⟨rfl, rfl⟩⟩

/-- Claim C4, behaviour at the failing input and around it: when every
loaded engine's call fails, the loop records the sentinel `-1` for each and
the benchmark returns (zero counts, no exception); with an empty registry it
returns the all-empty output; but as soon as one engine succeeds, building
`accuracy_comparison` calls `.get` on a pydantic `PIIAnalysisResult` and the
benchmark aborts with an `AttributeError`. -/
theorem benchmark_engines_behaviour :
    benchmark_engines
        { presidio := some .failed, spacy := some .failed,
          transformers := some .failed } =
      .ok { presidio_result := none, spacy_result := none,
            transformers_result := none,
            presidio_time := some (-1), spacy_time := some (-1),
            transformers_time := some (-1),
            accuracy_comparison := (0, 0, 0) } ∧
    benchmark_engines { presidio := none, spacy := none, transformers := none } =
      .ok { presidio_result := none, spacy_result := none,
            transformers_result := none,
            presidio_time := none, spacy_time := none, transformers_time := none,
            accuracy_comparison := (0, 0, 0) } ∧
    benchmark_engines
        { presidio := none,
          spacy := some (.ok 1 ⟨[], "hello".toList, "spacy".toList⟩),
          transformers := none } =
      .error .attributeError :=
  ⟨rfl, rfl, rfl⟩

/-- Counterexample to claim C5: consolidating
`[{PERSON,0,4,0.9}, {ORG,2,6,0.6}]` over "John Doe is here" and anonymizing
does not produce `"[PERSON] is here"` — the span 0-4 only covers "John", so
the replacement leaves " Doe is here" behind it. -/
theorem concrete_scenario_counterexample :
    anonymize "John Doe is here".toList
        (consolidate_findings
          [⟨"PERSON".toList, 0, 4, mkRat 9 10, "John".toList⟩,
           ⟨"ORG".toList, 2, 6, mkRat 3 5, "hn D".toList⟩]) ≠
      "[PERSON] is here".toList := by decide

/-- Claim C5 as amended: the findings `[{PERSON,0,4,0.9}, {ORG,2,6,0.6}]`
over `"John Doe is here"` consolidate to exactly `[{PERSON,0,4,0.9}]` (the
spans overlap and PERSON has the higher score), and anonymizing the text
with that consolidated set yields `"[PERSON] Doe is here"`. -/
theorem concrete_scenario_amended :
    consolidate_findings
        [⟨"PERSON".toList, 0, 4, mkRat 9 10, "John".toList⟩,
         ⟨"ORG".toList, 2, 6, mkRat 3 5, "hn D".toList⟩] =
      [⟨"PERSON".toList, 0, 4, mkRat 9 10, "John".toList⟩] ∧
    anonymize "John Doe is here".toList
        (consolidate_findings
          [⟨"PERSON".toList, 0, 4, mkRat 9 10, "John".toList⟩,
           ⟨"ORG".toList, 2, 6, mkRat 3 5, "hn D".toList⟩]) =
      "[PERSON] Doe is here".toList := by
  exact ⟨by decide, by decide⟩
